import Mathlib

/-!
Shallow embedding of the reflection-driven document-mapping layer of
`cjlucas/unnamedcast-server` (`server/db/model.go`): field-tag parsing
(`parseFieldTag`), model-descriptor construction (`newModelInfo`), the
shallow diff-and-copy utility (`CopyModel`), and query translation
(`collection.Find`).  Go maps are modelled as association lists where
insertion prepends and lookup returns the most recent binding
(last-write-wins), Go slices as lists, `reflect.DeepEqual` as decidable
equality on an abstract value type, and a panicking call as `none`.
-/

namespace UnnamedcastDB

/-- `strings.Split s ","` from the Go standard library, specialised to the
comma separator that `parseFieldTag` uses.  Defined structurally on the
character list so that concrete instances evaluate inside the kernel. -/
def splitComma : List Char → List (List Char)
  | [] => [[]]
  | c :: cs =>
    let r := splitComma cs
    if c = ',' then [] :: r
    else
      match r with
      | [] => [[c]]
      | l :: ls => (c :: l) :: ls

/-- `strings.Split` on `","`, at the `String` level. -/
def stringSplitComma (s : String) : List String :=
  (splitComma s.data).map fun cs => String.mk cs

/-- A Go `reflect.StructTag` restricted to the three namespaces the mapping
layer reads.  `Get` returns the empty string for an absent key, which is how
Go reports a missing tag. -/
structure StructTag where
  json : String
  bson : String
  index : String
deriving DecidableEq

def StructTag.get (tag : StructTag) (key : String) : String :=
  if key = "json" then tag.json
  else if key = "bson" then tag.bson
  else if key = "index" then tag.index
  else ""

structure FieldInfo where
  JSONName : String
  JSONOmitEmpty : Bool
  BSONName : String
  BSONOmitEmpty : Bool
  IndexName : String
  IndexUnique : Bool
  IndexText : Bool
deriving DecidableEq

/-- The `parseTag` closure inside `parseFieldTag`: for a raw tag value that is
neither `"-"` nor empty, the name is the segment before the first comma and
the remaining segments are the option strings; otherwise the namespace has no
name and no options. -/
def parseTag (info : String) : String × List String :=
  if info ≠ "-" ∧ info ≠ "" then
    match stringSplitComma info with
    | [] => ("", [])
    | name :: opts => (name, opts)
  else ("", [])

/-- Whether an option key occurs among the option strings; a flag is set iff
its key occurs (`for _, s := range split[1:] { if s == opt.Key ... }`). -/
def optContains (opts : List String) (key : String) : Bool :=
  opts.any fun s => decide (s = key)

/-- `parseFieldTag` from `model.go`.  The source registers the bson
`omitempty` option against `&tagInfo.JSONOmitEmpty`, so the bson option sets
the JSON flag and nothing ever sets `BSONOmitEmpty`; both wirings are kept
as in the source. -/
def parseFieldTag (tag : StructTag) : FieldInfo :=
  let json := parseTag (tag.get "json")
  let bson := parseTag (tag.get "bson")
  let index := parseTag (tag.get "index")
  let tagInfo : FieldInfo :=
    { JSONName := json.1
      JSONOmitEmpty := optContains json.2 "omitempty" || optContains bson.2 "omitempty"
      BSONName := bson.1
      BSONOmitEmpty := false
      IndexName := index.1
      IndexUnique := optContains index.2 "unique"
      IndexText := optContains index.2 "text" }
  if tag.get "index" ≠ "" ∧ tagInfo.IndexName = "" then
    { tagInfo with IndexName := tagInfo.BSONName }
  else tagInfo

/-- Lookup in a Go map modelled as an association list: the most recent
binding (nearest the head) wins. -/
def mapLookup {A : Type} (k : String) : List (String × A) → Option A
  | [] => none
  | (k₀, v) :: m => if k₀ = k then some v else mapLookup k m

/-- Insertion into a Go map modelled as an association list: prepending
shadows any older binding, giving last-write-wins semantics. -/
def mapInsert {A : Type} (k : String) (v : A) (m : List (String × A)) :
    List (String × A) :=
  (k, v) :: m

structure Index where
  Name : String
  Key : List String
  Unique : Bool
deriving DecidableEq

structure ModelInfo where
  Fields : List FieldInfo
  jsonNameMap : List (String × Nat)
  bsonNameMap : List (String × Nat)
  Indexes : List (String × Index)
deriving DecidableEq

def ModelInfo.addField (info : ModelInfo) (field : FieldInfo) : ModelInfo :=
  let fields := info.Fields ++ [field]
  { info with
    Fields := fields
    jsonNameMap := mapInsert field.JSONName (fields.length - 1) info.jsonNameMap
    bsonNameMap := mapInsert field.BSONName (fields.length - 1) info.bsonNameMap }

def ModelInfo.lookupName (info : ModelInfo) (name : String)
    (nameMap : List (String × Nat)) : Option FieldInfo :=
  match mapLookup name nameMap with
  | some i => info.Fields[i]?
  | none => none

def ModelInfo.LookupAPIName (info : ModelInfo) (name : String) : Option FieldInfo :=
  info.lookupName name info.jsonNameMap

def ModelInfo.LookupDBName (info : ModelInfo) (name : String) : Option FieldInfo :=
  info.lookupName name info.bsonNameMap

/-- One iteration of the field loop of `newModelInfo`.  In the existing-index
branch the source reads the map entry into the local variable `idx`, appends
to the `Key` slice of that local copy, and never stores the copy back, so the
map entry is left unchanged; the discarded local is kept here to mirror the
source line. -/
def newModelInfoStep (info : ModelInfo) (f : StructTag) : ModelInfo :=
  let tag := parseFieldTag f
  if tag.JSONName = "" ∨ tag.BSONName = "" then info
  else
    let info := info.addField tag
    if tag.IndexName ≠ "" then
      match mapLookup tag.IndexName info.Indexes with
      | some idx =>
        let _idx := { idx with Key := idx.Key ++ [tag.BSONName] }
        info
      | none =>
        { info with
          Indexes := mapInsert tag.IndexName
            { Name := tag.IndexName, Key := [tag.BSONName], Unique := tag.IndexUnique }
            info.Indexes }
    else info

/-- `newModelInfo` from `model.go`: a record type is its list of field tags in
declaration order. -/
def newModelInfo (model : List StructTag) : ModelInfo :=
  model.foldl newModelInfoStep
    { Fields := [], jsonNameMap := [], bsonNameMap := [], Indexes := [] }

/-- The reflective view of one struct field that `CopyModel` consults:
the Go field name, `CanInterface` (whether the field is exported) and
`CanSet` (whether the field is assignable). -/
structure FieldDecl where
  name : String
  canInterface : Bool
  canSet : Bool
deriving DecidableEq

/-- An argument to `CopyModel`: a pointer whose pointee is either a struct
value (the record's exported view, with field values of type `V`) or another
pointer, as `reflect.ValueOf(m).Elem()` would report. -/
inductive GoPtr (V : Type) where
  | toStruct : List V → GoPtr V
  | toPtr : GoPtr V → GoPtr V
deriving DecidableEq

/-- Whether `reflect.ValueOf(m).Elem().Kind() == reflect.Ptr`. -/
def elemIsPtr {V : Type} : GoPtr V → Bool
  | .toStruct _ => false
  | .toPtr _ => true

/-- The field loop of `CopyModel`, over the shared field declarations and the
two records' field values.  A field that is unexported or ignored is skipped;
a differing field is copied from the source record, marking the result
changed, unless it is unassignable, in which case the call panics (`none`).
`reflect.DeepEqual` is decidable equality on `V`. -/
def copyFields {V : Type} [DecidableEq V] (ignoredFields : List String) :
    List FieldDecl → List V → List V → Option (List V × Bool)
  | [], [], [] => some ([], false)
  | d :: ds, x :: xs, y :: ys =>
    if ¬d.canInterface ∨ ignoredFields.contains d.name then
      match copyFields ignoredFields ds xs ys with
      | some (r, c) => some (x :: r, c)
      | none => none
    else if x ≠ y then
      if ¬d.canSet then none
      else
        match copyFields ignoredFields ds xs ys with
        | some (r, _) => some (y :: r, true)
        | none => none
    else
      match copyFields ignoredFields ds xs ys with
      | some (r, c) => some (x :: r, c)
      | none => none
  | _, _, _ => none

/-- `CopyModel` from `model.go`.  Both arguments are dereferenced once; if
either pointee is itself a pointer the call panics (`none`).  On success the
result is the new contents of `m1` together with the changed flag. -/
def CopyModel {V : Type} [DecidableEq V] (decls : List FieldDecl)
    (m1 m2 : GoPtr V) (ignoredFields : List String) : Option (List V × Bool) :=
  if elemIsPtr m1 || elemIsPtr m2 then none
  else
    match m1, m2 with
    | .toStruct s1, .toStruct s2 => copyFields ignoredFields decls s1 s2
    | _, _ => none

/-- A field is copied by `CopyModel` iff it is exported and not ignored. -/
def copyable (ignoredFields : List String) (d : FieldDecl) : Bool :=
  d.canInterface && !ignoredFields.contains d.name

/-- The field values of the destination record after a completed copy: each
copyable field takes the source's value, every other field keeps its own. -/
def copiedFields {V : Type} (ignoredFields : List String) :
    List FieldDecl → List V → List V → List V
  | d :: ds, x :: xs, y :: ys =>
    (if copyable ignoredFields d then y else x) :: copiedFields ignoredFields ds xs ys
  | _, _, _ => []

/-- Whether some copyable field differs between the two records. -/
def changedFields {V : Type} [DecidableEq V] (ignoredFields : List String) :
    List FieldDecl → List V → List V → Bool
  | d :: ds, x :: xs, y :: ys =>
    (copyable ignoredFields d && decide (x ≠ y)) ||
      changedFields ignoredFields ds xs ys
  | _, _, _ => false

/-- The `Query` value object from `model.go`; the filter type `F` (`bson.M`)
is opaque to this layer and `none` stands for a nil filter. -/
structure Query (F : Type) where
  Filter : Option F
  SortField : String
  SortDesc : Bool
  SelectedFields : List String
  OmittedFields : List String
  Limit : Int
deriving DecidableEq

/-- Modelled from the spec: the repository's `query` type (the `Cursor`
implementation behind `collection.Find`) is not under `src/`; per §4.4 and
§2 a cursor is determined by the filter it was created with and the
projection, sort and limit subsequently applied to it, each absent until
set. -/
structure CursorState (F : Type) where
  filter : Option F
  projection : Option (List (String × Int))
  sort : Option String
  limit : Option Int
deriving DecidableEq

/-- A `collection` binds a model descriptor to an underlying store
collection; the store handle itself is external to this layer. -/
structure collection (F : Type) where
  modelInfo : ModelInfo
deriving DecidableEq

/-- `collection.Find` from `model.go`: a nil query yields an unconstrained
cursor; otherwise the filter is passed through, selected fields are written
into the projection map as `1` and then omitted fields as `-1`, the
projection is applied only when the map is non-empty, the sort field gains a
`-` marker when descending, and the limit is applied only when positive. -/
def collection.Find {F : Type} (c : collection F) (q : Option (Query F)) :
    CursorState F :=
  match q with
  | none => { filter := none, projection := none, sort := none, limit := none }
  | some q =>
    let cur : CursorState F :=
      { filter := q.Filter, projection := none, sort := none, limit := none }
    let sel := q.SelectedFields.foldl (fun m s => mapInsert s 1 m)
      ([] : List (String × Int))
    let sel := q.OmittedFields.foldl (fun m s => mapInsert s (-1) m) sel
    let cur := if 0 < sel.length then { cur with projection := some sel } else cur
    let cur :=
      if q.SortField ≠ "" then
        { cur with
          sort := some (if q.SortDesc then "-" ++ q.SortField else q.SortField) }
      else cur
    if 0 < q.Limit then { cur with limit := some q.Limit } else cur

/-- C1: the claim predicts that two fields sharing the index name `i` yield
an Index Definition with key list `["a", "b"]`; evaluating `newModelInfo` on
such a record type shows the stored Index Definition keeps only the first
field's storage name, because the appended key list is written to a local
copy of the map entry that is never stored back.  The uniqueness flag does
come from the first field. -/
theorem newModelInfo_shared_index_keeps_only_first_key :
    mapLookup "i"
      (newModelInfo [⟨"a", "a", "i,unique"⟩, ⟨"b", "b", "i"⟩]).Indexes =
      some { Name := "i", Key := ["a"], Unique := true } := by decide

/-- C3: evaluating `parseFieldTag` on a field whose storage annotation is
`foo,omitempty` shows the storage name is parsed as `foo` but the storage
omit-if-empty flag stays `false`: the source wires the bson `omitempty`
option to the JSON flag, which is set instead. -/
theorem parseFieldTag_bson_omitempty_sets_json_flag :
    parseFieldTag ⟨"x", "foo,omitempty", ""⟩ =
      { JSONName := "x", JSONOmitEmpty := true, BSONName := "foo",
        BSONOmitEmpty := false, IndexName := "", IndexUnique := false,
        IndexText := false } := by decide

/-- C4: evaluating `parseFieldTag` on a field whose index annotation is
exactly `-` shows the parsed index name is the field's storage name, not the
empty name the claim requires: the defaulting condition `tag.Get("index")
!= ""` treats `-` as a present annotation that supplies no name. -/
theorem parseFieldTag_index_dash_defaults_to_bson_name :
    (parseFieldTag ⟨"a", "b", "-"⟩).IndexName = "b" := by decide

/-- C2 counterexample: a field whose annotation yields the external name `a`
but no storage name is dropped from both lookup maps, contradicting the
claim that it still appears in the external-name map. -/
theorem newModelInfo_single_namespace_field_in_no_map :
    (parseFieldTag ⟨"a", "-", ""⟩).JSONName = "a" ∧
    (newModelInfo [⟨"a", "-", ""⟩]).jsonNameMap = [] ∧
    (newModelInfo [⟨"a", "-", ""⟩]).bsonNameMap = [] := by decide

/-- C7: `Find` with an absent (nil) query returns a cursor with no filter,
no projection, no sort and no limit, and two such calls against the same
collection return equal cursor states. -/
theorem find_nil_query_unconstrained {F : Type} (c : collection F) :
    c.Find none =
      { filter := none, projection := none, sort := none, limit := none } ∧
    c.Find none = c.Find none :=
  ⟨rfl, rfl⟩

/-- C8: dereferencing an argument that is a pointer to a pointer makes
`CopyModel` halt (`none`) in its double-pointer check, whichever side it is
on; when both arguments are single pointers to records, the result is
decided entirely by the field loop, so the halt branch is not taken. -/
theorem copyModel_double_pointer_panics {V : Type} [DecidableEq V]
    (decls : List FieldDecl) (ignoredFields : List String) :
    (∀ (p : GoPtr V) (m2 : GoPtr V),
      CopyModel decls (.toPtr p) m2 ignoredFields = none) ∧
    (∀ (m1 : GoPtr V) (p : GoPtr V),
      CopyModel decls m1 (.toPtr p) ignoredFields = none) ∧
    (∀ (s1 s2 : List V),
      CopyModel decls (.toStruct s1) (.toStruct s2) ignoredFields =
        copyFields ignoredFields decls s1 s2) := by
  refine ⟨fun p m2 => rfl, fun m1 p => ?_, fun s1 s2 => rfl⟩
  cases m1 <;> rfl

theorem copyFields_self {V : Type} [DecidableEq V] (ign : List String) :
    ∀ (ds : List FieldDecl) (xs : List V), ds.length = xs.length →
      copyFields ign ds xs xs = some (xs, false) := by
  intro ds
  induction ds with
  | nil =>
    intro xs h
    cases xs with
    | nil => simp [copyFields]
    | cons x xs => simp at h
  | cons d ds ih =>
    intro xs h
    cases xs with
    | nil => simp at h
    | cons x xs =>
      have hrec := ih xs (by simpa using h)
      by_cases hskip : ¬d.canInterface ∨ ign.contains d.name
      · simp [copyFields, hskip, hrec]
      · simp [copyFields, hskip, hrec]

theorem copyFields_again {V : Type} [DecidableEq V] (ign : List String) :
    ∀ (ds : List FieldDecl) (xs ys r : List V) (c : Bool),
      copyFields ign ds xs ys = some (r, c) →
      copyFields ign ds r ys = some (r, false) := by
  intro ds
  induction ds with
  | nil =>
    intro xs ys r c h
    cases xs <;> cases ys <;> simp [copyFields] at h
    obtain ⟨h1, _⟩ := h
    subst h1
    simp [copyFields]
  | cons d ds ih =>
    intro xs ys r c h
    cases xs with
    | nil => simp [copyFields] at h
    | cons x xs =>
      cases ys with
      | nil => simp [copyFields] at h
      | cons y ys =>
        by_cases hskip : ¬d.canInterface ∨ ign.contains d.name
        · rw [copyFields, if_pos hskip] at h
          cases hrec : copyFields ign ds xs ys with
          | none => rw [hrec] at h; cases h
          | some p =>
            obtain ⟨r₀, c₀⟩ := p
            rw [hrec] at h
            simp only [Option.some.injEq, Prod.mk.injEq] at h
            obtain ⟨hr, hc⟩ := h
            subst hr; subst hc
            rw [copyFields, if_pos hskip, ih xs ys r₀ c₀ hrec]
        · rw [copyFields, if_neg hskip] at h
          by_cases hxy : x ≠ y
          · rw [if_pos hxy] at h
            by_cases hset : ¬d.canSet
            · rw [if_pos hset] at h; cases h
            · rw [if_neg hset] at h
              cases hrec : copyFields ign ds xs ys with
              | none => rw [hrec] at h; cases h
              | some p =>
                obtain ⟨r₀, c₀⟩ := p
                rw [hrec] at h
                simp only [Option.some.injEq, Prod.mk.injEq] at h
                obtain ⟨hr, hc⟩ := h
                subst hr; subst hc
                rw [copyFields, if_neg hskip, if_neg (by simp), ih xs ys r₀ c₀ hrec]
          · rw [if_neg hxy] at h
            cases hrec : copyFields ign ds xs ys with
            | none => rw [hrec] at h; cases h
            | some p =>
              obtain ⟨r₀, c₀⟩ := p
              rw [hrec] at h
              simp only [Option.some.injEq, Prod.mk.injEq] at h
              obtain ⟨hr, hc⟩ := h
              subst hr; subst hc
              rw [copyFields, if_neg hskip, if_neg hxy, ih xs ys r₀ c₀ hrec]

/-- C6: for two records of the same type whose field values are all equal,
`CopyModel` reports no change and leaves every field of the destination at
its prior value. -/
theorem copyModel_identical_unchanged {V : Type} [DecidableEq V]
    (decls : List FieldDecl) (xs : List V) (ignoredFields : List String)
    (h : decls.length = xs.length) :
    CopyModel decls (.toStruct xs) (.toStruct xs) ignoredFields =
      some (xs, false) := by
  have := copyFields_self ignoredFields decls xs h
  simpa [CopyModel, elemIsPtr]

theorem copyModel_identical_unchanged_witness :
    ([⟨"A", true, true⟩, ⟨"b", false, false⟩] : List FieldDecl).length =
      ([3, 7] : List Nat).length ∧
    CopyModel [⟨"A", true, true⟩, ⟨"b", false, false⟩]
      (.toStruct [(3 : Nat), 7]) (.toStruct [3, 7]) ["A"] =
      some ([3, 7], false) :=
  ⟨by decide, copyModel_identical_unchanged [⟨"A", true, true⟩, ⟨"b", false, false⟩] [3, 7] ["A"] (by decide)⟩

/-- C10: `CopyModel` is idempotent: if a call on (dst, src) completes with
result `r`, the repeated call on (r, src) with the same ignore-list reports
no change and leaves the destination at `r`. -/
theorem copyModel_idempotent {V : Type} [DecidableEq V]
    (decls : List FieldDecl) (xs ys r : List V) (c : Bool)
    (ignoredFields : List String)
    (h : CopyModel decls (.toStruct xs) (.toStruct ys) ignoredFields =
      some (r, c)) :
    CopyModel decls (.toStruct r) (.toStruct ys) ignoredFields =
      some (r, false) := by
  simp only [CopyModel, elemIsPtr, Bool.or_self, Bool.false_eq_true,
    if_false] at h ⊢
  exact copyFields_again ignoredFields decls xs ys r c h

theorem copyModel_idempotent_witness :
    CopyModel [⟨"A", true, true⟩] (.toStruct [(0 : Nat)]) (.toStruct [1]) [] =
      some ([1], true) ∧
    CopyModel [⟨"A", true, true⟩] (.toStruct [(1 : Nat)]) (.toStruct [1]) [] =
      some ([1], false) :=
  ⟨by decide, copyModel_idempotent [⟨"A", true, true⟩] [0] [1] [1] true [] (by decide)⟩

theorem copyFields_eq_copied {V : Type} [DecidableEq V] (ign : List String) :
    ∀ (ds : List FieldDecl) (xs ys : List V), ds.length = xs.length →
      ds.length = ys.length →
      (∀ d ∈ ds, d.canInterface = true → d.canSet = true) →
      copyFields ign ds xs ys =
        some (copiedFields ign ds xs ys, changedFields ign ds xs ys) := by
  intro ds
  induction ds with
  | nil =>
    intro xs ys hx hy _
    cases xs with
    | nil =>
      cases ys with
      | nil => simp [copyFields, copiedFields, changedFields]
      | cons y ys => simp at hy
    | cons x xs => simp at hx
  | cons d ds ih =>
    intro xs ys hx hy hset
    cases xs with
    | nil => simp at hx
    | cons x xs =>
      cases ys with
      | nil => simp at hy
      | cons y ys =>
        have hrec := ih xs ys (by simpa using hx) (by simpa using hy)
          (fun d' hd' => hset d' (List.mem_cons_of_mem d hd'))
        by_cases hskip : ¬d.canInterface ∨ ign.contains d.name
        · have hcop : copyable ign d = false := by
            cases hskip with
            | inl h =>
              have h0 : d.canInterface = false := by simpa using h
              simp only [copyable, h0, Bool.false_and]
            | inr h => simp only [copyable, h, Bool.not_true, Bool.and_false]
          rw [copyFields, if_pos hskip, hrec]
          simp [copiedFields, changedFields, hcop]
        · have hcop : copyable ign d = true := by
            push_neg at hskip
            have h2 : ign.contains d.name = false := by simpa using hskip.2
            simp only [copyable, hskip.1, h2, Bool.not_false, Bool.and_true]
          by_cases hxy : x ≠ y
          · have hcset : ¬¬d.canSet = true := by
              push_neg at hskip ⊢
              exact hset d (List.mem_cons_self d ds) hskip.1
            rw [copyFields, if_neg hskip, if_pos hxy, if_neg hcset, hrec]
            simp [copiedFields, changedFields, hcop, hxy]
          · push_neg at hxy
            subst hxy
            rw [copyFields, if_neg hskip, if_neg (by simp), hrec]
            simp [copiedFields, changedFields, hcop]

theorem copiedFields_getElem {V : Type} (ign : List String) :
    ∀ (ds : List FieldDecl) (xs ys : List V) (i : Nat) (d : FieldDecl),
      ds.length = xs.length → ds.length = ys.length → ds[i]? = some d →
      (copiedFields ign ds xs ys)[i]? =
        (if copyable ign d then ys[i]? else xs[i]?) := by
  intro ds
  induction ds with
  | nil => intro xs ys i d _ _ hd; simp at hd
  | cons d₀ ds ih =>
    intro xs ys i d hx hy hd
    cases xs with
    | nil => simp at hx
    | cons x xs =>
      cases ys with
      | nil => simp at hy
      | cons y ys =>
        cases i with
        | zero =>
          simp only [List.getElem?_cons_zero, Option.some.injEq] at hd
          subst hd
          by_cases hcop : copyable ign d₀
          · simp [copiedFields, hcop]
          · simp [copiedFields, hcop]
        | succ n =>
          have := ih xs ys n d (by simpa using hx) (by simpa using hy)
            (by simpa using hd)
          simpa [copiedFields] using this

theorem changedFields_of_exists {V : Type} [DecidableEq V] (ign : List String) :
    ∀ (ds : List FieldDecl) (xs ys : List V) (i : Nat) (d : FieldDecl) (x y : V),
      ds[i]? = some d → xs[i]? = some x → ys[i]? = some y →
      copyable ign d = true → x ≠ y →
      changedFields ign ds xs ys = true := by
  intro ds
  induction ds with
  | nil => intro xs ys i d x y hd _ _ _ _; simp at hd
  | cons d₀ ds ih =>
    intro xs ys i d x y hd hx hy hcop hxy
    cases xs with
    | nil => simp at hx
    | cons x₀ xs =>
      cases ys with
      | nil => simp at hy
      | cons y₀ ys =>
        cases i with
        | zero =>
          simp only [List.getElem?_cons_zero, Option.some.injEq] at hd hx hy
          subst hd; subst hx; subst hy
          simp [changedFields, hcop, hxy]
        | succ n =>
          have := ih xs ys n d x y (by simpa using hd) (by simpa using hx)
            (by simpa using hy) hcop hxy
          simp [changedFields, this]

/-- C5 counterexample: the two single-field records differ at their only
field, which is not ignored, yet `CopyModel` reports changed = false and
does not copy the field, because the field is unexported
(`CanInterface` = false) and the loop skips it before comparing. -/
theorem copyModel_unexported_diff_not_copied :
    (0 : Nat) ≠ 1 ∧
    CopyModel [⟨"a", false, false⟩] (.toStruct [(0 : Nat)]) (.toStruct [1]) [] =
      some ([0], false) := by decide

/-- C5 (amended): if at least one exported, non-ignored field differs between
two same-type records whose exported fields are all assignable, `CopyModel`
returns changed = true, and afterwards every exported non-ignored field of
the destination equals the source's while every other field (ignored or
unexported) keeps its prior value. -/
theorem copyModel_copies_differing_copyable_fields {V : Type} [DecidableEq V]
    (decls : List FieldDecl) (xs ys : List V) (ignoredFields : List String)
    (hx : decls.length = xs.length) (hy : decls.length = ys.length)
    (hset : ∀ d ∈ decls, d.canInterface = true → d.canSet = true)
    (hdiff : ∃ (i : Nat) (d : FieldDecl) (x y : V), decls[i]? = some d ∧
      xs[i]? = some x ∧ ys[i]? = some y ∧
      copyable ignoredFields d = true ∧ x ≠ y) :
    CopyModel decls (.toStruct xs) (.toStruct ys) ignoredFields =
      some (copiedFields ignoredFields decls xs ys, true) ∧
    ∀ (i : Nat) (d : FieldDecl), decls[i]? = some d →
      (copyable ignoredFields d = true →
        (copiedFields ignoredFields decls xs ys)[i]? = ys[i]?) ∧
      (copyable ignoredFields d = false →
        (copiedFields ignoredFields decls xs ys)[i]? = xs[i]?) := by
  obtain ⟨i, d, x, y, hd, hxi, hyi, hcop, hxy⟩ := hdiff
  have hch := changedFields_of_exists ignoredFields decls xs ys i d x y
    hd hxi hyi hcop hxy
  have heq := copyFields_eq_copied ignoredFields decls xs ys hx hy hset
  constructor
  · simp only [CopyModel, elemIsPtr, Bool.or_self, Bool.false_eq_true, if_false]
    rw [heq, hch]
  · intro j d' hd'
    have hj := copiedFields_getElem ignoredFields decls xs ys j d' hx hy hd'
    constructor
    · intro hc; rw [hj, if_pos hc]
    · intro hc; rw [hj, if_neg (by simp [hc])]

theorem copyModel_copies_differing_copyable_fields_witness :
    CopyModel [⟨"A", true, true⟩, ⟨"b", false, false⟩, ⟨"C", true, true⟩]
      (.toStruct [(0 : Nat), 5, 9]) (.toStruct [1, 6, 9]) ["C"] =
      some (copiedFields ["C"]
        [⟨"A", true, true⟩, ⟨"b", false, false⟩, ⟨"C", true, true⟩]
        [(0 : Nat), 5, 9] [1, 6, 9], true) ∧
    copiedFields ["C"]
      [⟨"A", true, true⟩, ⟨"b", false, false⟩, ⟨"C", true, true⟩]
      [(0 : Nat), 5, 9] [1, 6, 9] = [1, 5, 9] :=
  ⟨(copyModel_copies_differing_copyable_fields
      [⟨"A", true, true⟩, ⟨"b", false, false⟩, ⟨"C", true, true⟩]
      [(0 : Nat), 5, 9] [1, 6, 9] ["C"] (by decide) (by decide)
      (by decide)
      ⟨0, ⟨"A", true, true⟩, 0, 1, by decide, by decide, by decide,
        by decide, by decide⟩).1,
    by decide⟩

/-- Every binding of the two name-lookup maps points at a field descriptor
that carries the looked-up name and has a non-empty name in both the
external and the storage namespace. -/
def mapsValid (info : ModelInfo) : Prop :=
  (∀ k i, mapLookup k info.jsonNameMap = some i →
    ∃ f, info.Fields[i]? = some f ∧ f.JSONName = k ∧
      f.JSONName ≠ "" ∧ f.BSONName ≠ "") ∧
  (∀ k i, mapLookup k info.bsonNameMap = some i →
    ∃ f, info.Fields[i]? = some f ∧ f.BSONName = k ∧
      f.JSONName ≠ "" ∧ f.BSONName ≠ "")

theorem newModelInfoStep_skip (info : ModelInfo) (f : StructTag)
    (h : (parseFieldTag f).JSONName = "" ∨ (parseFieldTag f).BSONName = "") :
    newModelInfoStep info f = info := by
  simp [newModelInfoStep, h]

theorem newModelInfoStep_add (info : ModelInfo) (f : StructTag)
    (h1 : ¬(parseFieldTag f).JSONName = "")
    (h2 : ¬(parseFieldTag f).BSONName = "") :
    (newModelInfoStep info f).Fields = info.Fields ++ [parseFieldTag f] ∧
    (newModelInfoStep info f).jsonNameMap =
      mapInsert (parseFieldTag f).JSONName info.Fields.length
        info.jsonNameMap ∧
    (newModelInfoStep info f).bsonNameMap =
      mapInsert (parseFieldTag f).BSONName info.Fields.length
        info.bsonNameMap := by
  have hor : ¬((parseFieldTag f).JSONName = "" ∨ (parseFieldTag f).BSONName = "") := by
    push_neg
    exact ⟨h1, h2⟩
  simp only [newModelInfoStep, if_neg hor, ModelInfo.addField]
  split
  · split <;> simp
  · simp

theorem mapsValid_step (info : ModelInfo) (f : StructTag)
    (h : mapsValid info) : mapsValid (newModelInfoStep info f) := by
  by_cases hskip : (parseFieldTag f).JSONName = "" ∨ (parseFieldTag f).BSONName = ""
  · rw [newModelInfoStep_skip info f hskip]
    exact h
  · push_neg at hskip
    obtain ⟨hF, hJ, hB⟩ := newModelInfoStep_add info f hskip.1 hskip.2
    constructor
    · intro k i hk
      rw [hJ] at hk
      rw [hF]
      simp only [mapInsert, mapLookup] at hk
      by_cases hkk : (parseFieldTag f).JSONName = k
      · rw [if_pos hkk, Option.some.injEq] at hk
        subst hk
        exact ⟨parseFieldTag f, List.getElem?_concat_length _ _, hkk,
          hskip.1, hskip.2⟩
      · rw [if_neg hkk] at hk
        obtain ⟨g, hg, hgk, hg1, hg2⟩ := h.1 k i hk
        have hi : i < info.Fields.length := by
          obtain ⟨hlt, -⟩ := List.getElem?_eq_some.mp hg
          exact hlt
        exact ⟨g, by rw [List.getElem?_append_left hi]; exact hg, hgk, hg1, hg2⟩
    · intro k i hk
      rw [hB] at hk
      rw [hF]
      simp only [mapInsert, mapLookup] at hk
      by_cases hkk : (parseFieldTag f).BSONName = k
      · rw [if_pos hkk, Option.some.injEq] at hk
        subst hk
        exact ⟨parseFieldTag f, List.getElem?_concat_length _ _, hkk,
          hskip.1, hskip.2⟩
      · rw [if_neg hkk] at hk
        obtain ⟨g, hg, hgk, hg1, hg2⟩ := h.2 k i hk
        have hi : i < info.Fields.length := by
          obtain ⟨hlt, -⟩ := List.getElem?_eq_some.mp hg
          exact hlt
        exact ⟨g, by rw [List.getElem?_append_left hi]; exact hg, hgk, hg1, hg2⟩

theorem mapsValid_fold (l : List StructTag) :
    ∀ info : ModelInfo, mapsValid info →
      mapsValid (l.foldl newModelInfoStep info) := by
  induction l with
  | nil => intro info h; exact h
  | cons a l ih =>
    intro info h
    exact ih (newModelInfoStep info a) (mapsValid_step info a h)

theorem lookup_isSome_step_json (info : ModelInfo) (f : StructTag) (k : String)
    (h : (mapLookup k info.jsonNameMap).isSome = true) :
    (mapLookup k (newModelInfoStep info f).jsonNameMap).isSome = true := by
  by_cases hskip : (parseFieldTag f).JSONName = "" ∨ (parseFieldTag f).BSONName = ""
  · rw [newModelInfoStep_skip info f hskip]; exact h
  · push_neg at hskip
    obtain ⟨-, hJ, -⟩ := newModelInfoStep_add info f hskip.1 hskip.2
    rw [hJ]
    simp only [mapInsert, mapLookup]
    by_cases hkk : (parseFieldTag f).JSONName = k
    · rw [if_pos hkk]; rfl
    · rw [if_neg hkk]; exact h

theorem lookup_isSome_step_bson (info : ModelInfo) (f : StructTag) (k : String)
    (h : (mapLookup k info.bsonNameMap).isSome = true) :
    (mapLookup k (newModelInfoStep info f).bsonNameMap).isSome = true := by
  by_cases hskip : (parseFieldTag f).JSONName = "" ∨ (parseFieldTag f).BSONName = ""
  · rw [newModelInfoStep_skip info f hskip]; exact h
  · push_neg at hskip
    obtain ⟨-, -, hB⟩ := newModelInfoStep_add info f hskip.1 hskip.2
    rw [hB]
    simp only [mapInsert, mapLookup]
    by_cases hkk : (parseFieldTag f).BSONName = k
    · rw [if_pos hkk]; rfl
    · rw [if_neg hkk]; exact h

theorem lookup_isSome_fold_json (l : List StructTag) :
    ∀ (info : ModelInfo) (k : String),
      (mapLookup k info.jsonNameMap).isSome = true →
      (mapLookup k ((l.foldl newModelInfoStep info).jsonNameMap)).isSome = true := by
  induction l with
  | nil => intro info k h; exact h
  | cons a l ih =>
    intro info k h
    exact ih (newModelInfoStep info a) k (lookup_isSome_step_json info a k h)

theorem lookup_isSome_fold_bson (l : List StructTag) :
    ∀ (info : ModelInfo) (k : String),
      (mapLookup k info.bsonNameMap).isSome = true →
      (mapLookup k ((l.foldl newModelInfoStep info).bsonNameMap)).isSome = true := by
  induction l with
  | nil => intro info k h; exact h
  | cons a l ih =>
    intro info k h
    exact ih (newModelInfoStep info a) k (lookup_isSome_step_bson info a k h)

theorem fold_mem_names (l : List StructTag) :
    ∀ (info : ModelInfo) (t : StructTag), t ∈ l →
      (parseFieldTag t).JSONName ≠ "" → (parseFieldTag t).BSONName ≠ "" →
      (mapLookup (parseFieldTag t).JSONName
        ((l.foldl newModelInfoStep info).jsonNameMap)).isSome = true ∧
      (mapLookup (parseFieldTag t).BSONName
        ((l.foldl newModelInfoStep info).bsonNameMap)).isSome = true := by
  induction l with
  | nil => intro info t ht; cases ht
  | cons a l ih =>
    intro info t ht h1 h2
    rw [List.foldl_cons]
    rcases List.mem_cons.mp ht with rfl | htl
    · obtain ⟨-, hJ, hB⟩ := newModelInfoStep_add info t h1 h2
      constructor
      · apply lookup_isSome_fold_json
        rw [hJ]
        simp [mapInsert, mapLookup]
      · apply lookup_isSome_fold_bson
        rw [hB]
        simp [mapInsert, mapLookup]
    · exact ih (newModelInfoStep info a) t htl h1 h2

/-- C2 (amended): a field lacking a name in the external namespace, the
storage namespace, or both, appears in neither name-lookup map of the Model
Descriptor — every map binding resolves to a field descriptor with a
non-empty name in both namespaces — while a field named in both namespaces
appears in both maps. -/
theorem newModelInfo_name_maps_require_both_names (tags : List StructTag) :
    mapsValid (newModelInfo tags) ∧
    ∀ t ∈ tags, (parseFieldTag t).JSONName ≠ "" →
      (parseFieldTag t).BSONName ≠ "" →
      (mapLookup (parseFieldTag t).JSONName
        (newModelInfo tags).jsonNameMap).isSome = true ∧
      (mapLookup (parseFieldTag t).BSONName
        (newModelInfo tags).bsonNameMap).isSome = true := by
  constructor
  · apply mapsValid_fold
    constructor
    · intro k i hk; cases hk
    · intro k i hk; cases hk
  · intro t ht h1 h2
    exact fold_mem_names tags _ t ht h1 h2

theorem newModelInfo_name_maps_require_both_names_witness :
    (mapLookup (parseFieldTag ⟨"a", "b", ""⟩).JSONName
      (newModelInfo [⟨"a", "b", ""⟩]).jsonNameMap).isSome = true ∧
    (mapLookup (parseFieldTag ⟨"a", "b", ""⟩).BSONName
      (newModelInfo [⟨"a", "b", ""⟩]).bsonNameMap).isSome = true :=
  (newModelInfo_name_maps_require_both_names [⟨"a", "b", ""⟩]).2
    ⟨"a", "b", ""⟩ (List.mem_singleton.mpr rfl) (by decide) (by decide)

theorem mapLookup_foldl_insert {A : Type} (v : A) :
    ∀ (l : List String) (base : List (String × A)) (s : String),
      (s ∈ l ∨ mapLookup s base = some v) →
      mapLookup s (l.foldl (fun m x => mapInsert x v m) base) = some v := by
  intro l
  induction l with
  | nil =>
    intro base s h
    rcases h with h | h
    · cases h
    · simpa using h
  | cons a l ih =>
    intro base s h
    rw [List.foldl_cons]
    apply ih
    by_cases has : a = s
    · right
      simp [mapInsert, mapLookup, has]
    · rcases h with h | h
      · rcases List.mem_cons.mp h with rfl | h'
        · exact absurd rfl has
        · left; exact h'
      · right
        simpa [mapInsert, mapLookup, has] using h

theorem length_foldl_insert {A : Type} (v : A) :
    ∀ (l : List String) (base : List (String × A)),
      (l.foldl (fun m x => mapInsert x v m) base).length =
        base.length + l.length := by
  intro l
  induction l with
  | nil => intro base; simp
  | cons a l ih =>
    intro base
    rw [List.foldl_cons, ih]
    simp [mapInsert]
    omega

/-- C9: when a field name occurs in both `SelectedFields` and
`OmittedFields`, the projection map that `Find` builds marks that field with
`-1` (excluded): the omitted entries are written after the selected entries,
so the exclusion is the binding that a map lookup sees. -/
theorem find_omitted_overrides_selected {F : Type} (c : collection F)
    (q : Query F) (s : String)
    (hs : s ∈ q.SelectedFields) (ho : s ∈ q.OmittedFields) :
    ∃ sel, (c.Find (some q)).projection = some sel ∧
      mapLookup s sel = some (-1) := by
  have hlook := mapLookup_foldl_insert (-1 : Int) q.OmittedFields
    (q.SelectedFields.foldl (fun m x => mapInsert x (1 : Int) m) []) s
    (Or.inl ho)
  have hpos : 0 < q.OmittedFields.length := List.length_pos.mpr
    (List.ne_nil_of_mem ho)
  have hlen : 0 < (q.OmittedFields.foldl (fun m x => mapInsert x (-1 : Int) m)
      (q.SelectedFields.foldl (fun m x => mapInsert x (1 : Int) m) [])).length := by
    rw [length_foldl_insert]
    omega
  refine ⟨_, ?_, hlook⟩
  simp only [collection.Find]
  rw [if_pos hlen]
  split <;> split <;> rfl

theorem find_omitted_overrides_selected_witness :
    ("a" ∈ ["a", "b"]) ∧ ("a" ∈ ["a"]) ∧
    ∃ sel,
      ((collection.Find
          (⟨{ Fields := [], jsonNameMap := [], bsonNameMap := [],
              Indexes := [] }⟩ : collection Nat)
          (some { Filter := none, SortField := "", SortDesc := false,
                  SelectedFields := ["a", "b"], OmittedFields := ["a"],
                  Limit := 0 })).projection = some sel ∧
        mapLookup "a" sel = some (-1)) :=
  ⟨by decide, by decide,
    find_omitted_overrides_selected
      (⟨{ Fields := [], jsonNameMap := [], bsonNameMap := [],
          Indexes := [] }⟩ : collection Nat)
      { Filter := none, SortField := "", SortDesc := false,
        SelectedFields := ["a", "b"], OmittedFields := ["a"], Limit := 0 }
      "a" (by decide) (by decide)⟩

end UnnamedcastDB
